import Mathlib

set_option linter.unusedSectionVars false

/-!
Verification of the `@xj63/lru-cache` TypeScript LRU cache (`src/index.ts`).

The cache couples a JS `Map` from keys to doubly-linked-list nodes (the
*index*, field `cache`) with a doubly-linked list of nodes delimited by two
sentinels `head`/`tail` (the *ordering*).  We shallowly embed a cache state
as:

* `capacity : ℚ` — the constructor parameter has TypeScript type `number`;
  we embed the numeric values relevant to the spec (all finite decimals,
  such as `2.5`) as rationals, over which the comparisons `capacity <= 0`
  and `size >= capacity` performed by the source are exact.
* `cache : List (K × V)` — the `Map` as an insertion-ordered association
  list: `Map.get` finds the (unique) binding, `Map.set` overwrites an
  existing binding in place or appends a fresh one, `Map.delete` removes
  the binding.  Each binding `(k, v)` stands for the map entry
  `k ↦ node` together with the node's current `value` field `v`.
* `order : List (K × V)` — the ordering, as the sequence of `(key, value)`
  pairs of the non-sentinel nodes read from `head.next` up to (excluding)
  `tail`; index 0 is the MRU position (`head.next`), the last element is
  the LRU position (`tail.prev`).  The sentinels hold no key and never
  appear.  Pointer splicing becomes: `addToHead` = cons, `removeNode` =
  remove that node's pair, `removeTail` = drop the last element.

The `Map` and the list share the same node objects in the source, so a
node's `value` mutation is visible through both; in the embedding every
operation updates both fields accordingly.
-/

namespace LruModel

variable {K V W : Type} [DecidableEq K]

/-- `Map.get k` on the association-list model of the JS `Map`: the value of
the first (in a well-formed map: the only) binding of `k`. -/
def lookupKey : List (K × V) → K → Option V
  | [], _ => none
  | (k', v) :: rest, k => if k' = k then some v else lookupKey rest k

/-- `Map.set k v`: overwrite the binding of `k` in place if present,
otherwise append a fresh binding at the end (JS `Map` insertion order). -/
def setKey : List (K × V) → K → V → List (K × V)
  | [], k, v => [(k, v)]
  | (k', v') :: rest, k, v =>
    if k' = k then (k, v) :: rest else (k', v') :: setKey rest k v

/-- `Map.delete k` (and, on the ordering, splicing out the node holding key
`k`): remove the first binding of `k`, if any. -/
def removeKey : List (K × V) → K → List (K × V)
  | [], _ => []
  | (k', v') :: rest, k =>
    if k' = k then rest else (k', v') :: removeKey rest k

/-- State of an `LRUCache<K, V>` instance: the fields `capacity`,
`cache` (the index `Map`) and the node chain strung between the `head` and
`tail` sentinels (`order`, MRU first). -/
structure LRUCache (K V : Type) where
  capacity : ℚ
  cache : List (K × V)
  order : List (K × V)
deriving DecidableEq

/-- The single error kind of the library: `new Error('Capacity must be
positive')`, thrown by the constructor. -/
inductive ConstructError where
  | invalidCapacity
deriving DecidableEq

/-- The state the constructor builds once validation passed: empty map,
`head.next = tail` and `tail.prev = head` (i.e. an empty ordering). -/
def mkEmpty (capacity : ℚ) : LRUCache K V :=
  { capacity := capacity, cache := [], order := [] }

/-- `constructor(capacity)`: `if (capacity <= 0) throw new Error(...)`,
otherwise initialize the empty cache. -/
def construct (capacity : ℚ) : Except ConstructError (LRUCache K V) :=
  if capacity ≤ 0 then Except.error ConstructError.invalidCapacity
  else Except.ok (mkEmpty capacity)

/-- Private `addToHead(node)`: splice the node in right after `head`,
making it the MRU element. -/
def LRUCache.addToHead (st : LRUCache K V) (k : K) (v : V) : LRUCache K V :=
  { st with order := (k, v) :: st.order }

/-- Private `removeNode(node)` applied to the node the index maps `k` to:
re-link the node's neighbours to each other, removing it from the
ordering. -/
def LRUCache.removeNode (st : LRUCache K V) (k : K) : LRUCache K V :=
  { st with order := removeKey st.order k }

/-- Private `moveToHead(node)` = `removeNode(node); addToHead(node)`, for
the node with key `k` whose current value is `v`. -/
def LRUCache.moveToHead (st : LRUCache K V) (k : K) (v : V) : LRUCache K V :=
  (st.removeNode k).addToHead k v

/-- Private `removeTail()`: take `last = tail.prev` (when the ordering is
empty this is the `head` sentinel and the source would dereference a null
`prev` — unreachable, since `removeTail` is only called with
`size >= capacity > 0`); delete `last.key` from the map and splice `last`
out. -/
def LRUCache.removeTail (st : LRUCache K V) : LRUCache K V :=
  match st.order.getLast? with
  | none => st
  | some last =>
    { st with cache := removeKey st.cache last.1, order := st.order.dropLast }

/-- `get(key)`: look `key` up in the map; on a miss return `undefined`
(`none`) without touching anything, on a hit move the node to the head and
return its value.  State passing makes the mutation of `this` explicit. -/
def LRUCache.get (st : LRUCache K V) (k : K) : Option V × LRUCache K V :=
  match lookupKey st.cache k with
  | none => (none, st)
  | some v => (some v, st.moveToHead k v)

/-- `set(key, value)`: if `key` has a node, mutate its `value` in place
(visible through both the map and the ordering) and move it to the head;
otherwise, after evicting the tail node when `this.cache.size >=
this.capacity`, add a fresh node to the map and to the head. -/
def LRUCache.set (st : LRUCache K V) (k : K) (v : V) : LRUCache K V :=
  match lookupKey st.cache k with
  | some _ =>
    { st.moveToHead k v with cache := setKey st.cache k v }
  | none =>
    let st' := if st.capacity ≤ (st.cache.length : ℚ) then st.removeTail else st
    { st'.addToHead k v with cache := setKey st'.cache k v }

/-- `delete(key)`: `false` on a missing key, otherwise remove the node
from the map and splice it out of the ordering, returning `true`. -/
def LRUCache.delete (st : LRUCache K V) (k : K) : Bool × LRUCache K V :=
  match lookupKey st.cache k with
  | none => (false, st)
  | some _ => (true, { st.removeNode k with cache := removeKey st.cache k })

/-- `has(key)`: `return this.cache.has(key)` — a pure map-membership test;
the method body performs no mutation, so the state handed back is `st`
itself. -/
def LRUCache.has (st : LRUCache K V) (k : K) : Bool × LRUCache K V :=
  ((lookupKey st.cache k).isSome, st)

/-- `clear()`: `this.cache.clear()` and re-link the two sentinels
directly to each other. -/
def LRUCache.clear (st : LRUCache K V) : LRUCache K V :=
  { st with cache := [], order := [] }

/-- `get size()`: `return this.cache.size`. -/
def LRUCache.size (st : LRUCache K V) : Nat :=
  st.cache.length

/-- The loop of `keys()`: walk from `head.next` to `tail`, pushing
`current.key`. -/
def walkKeys : List (K × V) → List K
  | [] => []
  | e :: rest => e.1 :: walkKeys rest

/-- The loop of `values()`: walk from `head.next` to `tail`, pushing
`current.value`. -/
def walkValues : List (K × V) → List V
  | [] => []
  | e :: rest => e.2 :: walkValues rest

/-- The loop of `entries()`: walk from `head.next` to `tail`, pushing
`[current.key, current.value]`. -/
def walkEntries : List (K × V) → List (K × V)
  | [] => []
  | e :: rest => (e.1, e.2) :: walkEntries rest

/-- The loop of the `[Symbol.iterator]()` generator: walk from `head.next`
to `tail`, yielding `[current.key, current.value]`; collected as the (always
finite) list of yielded pairs. -/
def iterWalk : List (K × V) → List (K × V)
  | [] => []
  | e :: rest => (e.1, e.2) :: iterWalk rest

/-- `keys()`. -/
def LRUCache.keys (st : LRUCache K V) : List K :=
  walkKeys st.order

/-- `values()`. -/
def LRUCache.values (st : LRUCache K V) : List V :=
  walkValues st.order

/-- `entries()`. -/
def LRUCache.entries (st : LRUCache K V) : List (K × V) :=
  walkEntries st.order

/-- The sequence produced by one run of the `[Symbol.iterator]()`
generator. -/
def LRUCache.iterSeq (st : LRUCache K V) : List (K × V) :=
  iterWalk st.order

/-- `q` is a positive integer (the spec's stated domain for `capacity`). -/
def IsPosIntQ (q : ℚ) : Prop :=
  0 < q ∧ q.den = 1

instance (q : ℚ) : Decidable (IsPosIntQ q) :=
  inferInstanceAs (Decidable (_ ∧ _))

/-- One public mutating-or-reading operation, for stating properties of
operation sequences. -/
inductive Op (K V : Type) where
  | get (k : K)
  | set (k : K) (v : V)
  | has (k : K)
  | delete (k : K)
  | clear
deriving DecidableEq

/-- Run one operation, keeping only the state. -/
def applyOp (st : LRUCache K V) : Op K V → LRUCache K V
  | Op.get k => (st.get k).2
  | Op.set k v => st.set k v
  | Op.has k => (st.has k).2
  | Op.delete k => (st.delete k).2
  | Op.clear => st.clear

/-- Run a sequence of operations from the left. -/
def applyOps (st : LRUCache K V) : List (Op K V) → LRUCache K V
  | [] => st
  | op :: rest => applyOps (applyOp st op) rest

/-- `op`, run in state `st`, neither evicts `k`, overwrites `k`, deletes
`k`, nor clears the cache (the side conditions of the spec's round-trip
law).  Eviction of `k` happens exactly when a `set` of an absent key in a
state with `size >= capacity` finds `k` in the node at the LRU position. -/
def keySafe (k : K) (st : LRUCache K V) : Op K V → Bool
  | Op.get _ => true
  | Op.has _ => true
  | Op.set k' _ =>
    if k' = k then false
    else if (lookupKey st.cache k').isNone
        && decide (st.capacity ≤ (st.cache.length : ℚ)) then
      decide ((st.order.getLast?).map Prod.fst ≠ some k)
    else true
  | Op.delete k' => decide (k' ≠ k)
  | Op.clear => false

/-- Every operation of the trace is `keySafe` for `k` in the state it
actually runs in. -/
def safeTrace (k : K) : LRUCache K V → List (Op K V) → Bool
  | _, [] => true
  | st, op :: rest => keySafe k st op && safeTrace k (applyOp st op) rest

/-- Iterate `has` (keeping the state it hands back) `n` times. -/
def hasIter (st : LRUCache K V) (k : K) : Nat → LRUCache K V
  | 0 => st
  | n + 1 => ((hasIter st k n).has k).2

/-- The states reachable from a freshly constructed cache (capacity a
positive integer, as the spec requires of callers) by any sequence of
public operations.  `has` is pure (`LRUCache.has` hands back the state
unchanged), so a dedicated step for it would be the identity. -/
inductive Reachable : LRUCache K V → Prop
  | construct (n : Nat) (h : 0 < n) : Reachable (mkEmpty (n : ℚ))
  | get (st : LRUCache K V) (k : K) : Reachable st → Reachable (st.get k).2
  | set (st : LRUCache K V) (k : K) (v : V) : Reachable st → Reachable (st.set k v)
  | has (st : LRUCache K V) (k : K) : Reachable st → Reachable (st.has k).2
  | delete (st : LRUCache K V) (k : K) : Reachable st → Reachable (st.delete k).2
  | clear (st : LRUCache K V) : Reachable st → Reachable st.clear

/-- The structural invariant every reachable state satisfies: the capacity
is a positive integer, the map and the ordering hold the same bindings
(they share their nodes), no key occurs twice in the ordering, and the
ordering never exceeds the capacity. -/
def Inv (st : LRUCache K V) : Prop :=
  IsPosIntQ st.capacity ∧
  st.cache.Perm st.order ∧
  (st.order.map Prod.fst).Nodup ∧
  (st.order.length : ℚ) ≤ st.capacity

/-! ### Association-list lemmas -/

theorem lookupKey_eq_none_iff (m : List (K × V)) (k : K) :
    lookupKey m k = none ↔ k ∉ m.map Prod.fst := by
  induction m with
  | nil => simp [lookupKey]
  | cons e rest ih =>
    obtain ⟨k', v⟩ := e
    by_cases h : k' = k
    · subst h; simp [lookupKey]
    · simp [lookupKey, h, ih, Ne.symm h]

theorem lookupKey_mem {m : List (K × V)} {k : K} {v : V}
    (h : lookupKey m k = some v) : (k, v) ∈ m := by
  induction m with
  | nil => simp [lookupKey] at h
  | cons e rest ih =>
    obtain ⟨k', v'⟩ := e
    by_cases hk : k' = k
    · subst hk
      simp [lookupKey] at h
      subst h
      exact List.mem_cons_self _ _
    · simp [lookupKey, hk] at h
      exact List.mem_cons_of_mem _ (ih h)

theorem lookupKey_isSome_iff (m : List (K × V)) (k : K) :
    (lookupKey m k).isSome = true ↔ k ∈ m.map Prod.fst := by
  cases h : lookupKey m k with
  | none =>
    simp only [Option.isSome_none, Bool.false_eq_true, false_iff]
    exact (lookupKey_eq_none_iff m k).mp h
  | some v =>
    simp only [Option.isSome_some, true_iff]
    exact List.mem_map.mpr ⟨(k, v), lookupKey_mem h, rfl⟩

theorem mem_lookupKey {m : List (K × V)} {k : K} {v : V}
    (hnd : (m.map Prod.fst).Nodup) (h : (k, v) ∈ m) :
    lookupKey m k = some v := by
  induction m with
  | nil => simp at h
  | cons e rest ih =>
    obtain ⟨k', v'⟩ := e
    simp only [List.map_cons, List.nodup_cons] at hnd
    rcases List.mem_cons.mp h with h1 | h1
    · rw [Prod.mk.injEq] at h1
      obtain ⟨rfl, rfl⟩ := h1
      simp [lookupKey]
    · have hk : k' ≠ k := by
        rintro rfl
        exact hnd.1 (List.mem_map.mpr ⟨(k', v), h1, rfl⟩)
      simp only [lookupKey, if_neg hk]
      exact ih hnd.2 h1

theorem lookupKey_setKey_self (m : List (K × V)) (k : K) (v : V) :
    lookupKey (setKey m k v) k = some v := by
  induction m with
  | nil => simp [setKey, lookupKey]
  | cons e rest ih =>
    obtain ⟨k', v'⟩ := e
    by_cases h : k' = k
    · subst h; simp [setKey, lookupKey]
    · simp [setKey, lookupKey, h, ih]

theorem lookupKey_setKey_ne (m : List (K × V)) (k : K) (v : V) {k' : K}
    (h : k' ≠ k) : lookupKey (setKey m k v) k' = lookupKey m k' := by
  induction m with
  | nil => simp [setKey, lookupKey, Ne.symm h]
  | cons e rest ih =>
    obtain ⟨k₀, v₀⟩ := e
    by_cases h0 : k₀ = k
    · subst h0
      simp [setKey, lookupKey, Ne.symm h]
    · by_cases h1 : k₀ = k'
      · subst h1; simp [setKey, lookupKey, h0]
      · simp [setKey, lookupKey, h0, h1, ih]

theorem lookupKey_removeKey_ne (m : List (K × V)) (k : K) {k' : K}
    (h : k' ≠ k) : lookupKey (removeKey m k) k' = lookupKey m k' := by
  induction m with
  | nil => simp [removeKey]
  | cons e rest ih =>
    obtain ⟨k₀, v₀⟩ := e
    by_cases h0 : k₀ = k
    · subst h0
      simp [removeKey, lookupKey, Ne.symm h]
    · by_cases h1 : k₀ = k'
      · subst h1; simp [removeKey, lookupKey, h0]
      · simp [removeKey, lookupKey, h0, h1, ih]

theorem removeKey_sublist (m : List (K × V)) (k : K) :
    List.Sublist (removeKey m k) m := by
  induction m with
  | nil => simp [removeKey]
  | cons e rest ih =>
    obtain ⟨k', v'⟩ := e
    by_cases h : k' = k
    · simp only [removeKey, if_pos h]
      exact List.sublist_cons_self _ _
    · simp only [removeKey, if_neg h]
      exact ih.cons₂ _

theorem keys_removeKey (m : List (K × V)) (k : K) :
    (removeKey m k).map Prod.fst = (m.map Prod.fst).erase k := by
  induction m with
  | nil => simp [removeKey]
  | cons e rest ih =>
    obtain ⟨k', v'⟩ := e
    by_cases h : k' = k
    · subst h; simp [removeKey, List.erase_cons]
    · simp [removeKey, List.erase_cons, h, ih]

theorem lookupKey_removeKey_self (m : List (K × V)) (k : K)
    (hnd : (m.map Prod.fst).Nodup) : lookupKey (removeKey m k) k = none := by
  rw [lookupKey_eq_none_iff, keys_removeKey]
  exact hnd.not_mem_erase

theorem removeKey_of_not_mem {m : List (K × V)} {k : K}
    (h : k ∉ m.map Prod.fst) : removeKey m k = m := by
  induction m with
  | nil => simp [removeKey]
  | cons e rest ih =>
    obtain ⟨k', v'⟩ := e
    simp only [List.map_cons, List.mem_cons] at h
    push_neg at h
    simp [removeKey, Ne.symm h.1, ih h.2]

theorem setKey_of_not_mem {m : List (K × V)} {k : K} (v : V)
    (h : k ∉ m.map Prod.fst) : setKey m k v = m ++ [(k, v)] := by
  induction m with
  | nil => simp [setKey]
  | cons e rest ih =>
    obtain ⟨k', v'⟩ := e
    simp only [List.map_cons, List.mem_cons] at h
    push_neg at h
    simp [setKey, Ne.symm h.1, ih h.2]

theorem length_removeKey_add_one {m : List (K × V)} {k : K}
    (h : k ∈ m.map Prod.fst) : (removeKey m k).length + 1 = m.length := by
  induction m with
  | nil => simp at h
  | cons e rest ih =>
    obtain ⟨k', v'⟩ := e
    by_cases h0 : k' = k
    · simp [removeKey, h0]
    · simp only [List.map_cons, List.mem_cons] at h
      rcases h with h | h

      · exact absurd h.symm h0
      · simp [removeKey, h0, ih h]

theorem length_setKey_present {m : List (K × V)} {k : K} (v : V)
    (h : k ∈ m.map Prod.fst) : (setKey m k v).length = m.length := by
  induction m with
  | nil => simp at h
  | cons e rest ih =>
    obtain ⟨k', v'⟩ := e
    by_cases h0 : k' = k
    · simp [setKey, h0]
    · simp only [List.map_cons, List.mem_cons] at h
      rcases h with h | h
      · exact absurd h.symm h0
      · simp [setKey, h0, ih h]

theorem perm_cons_removeKey {m : List (K × V)} {k : K} {v : V}
    (h : lookupKey m k = some v) : m.Perm ((k, v) :: removeKey m k) := by
  induction m with
  | nil => simp [lookupKey] at h
  | cons e rest ih =>
    obtain ⟨k', v'⟩ := e
    by_cases h0 : k' = k
    · subst h0
      simp [lookupKey] at h
      subst h
      simp [removeKey]
    · simp [lookupKey, h0] at h
      have hrw : removeKey ((k', v') :: rest) k = (k', v') :: removeKey rest k := by
        simp [removeKey, h0]
      rw [hrw]
      exact ((ih h).cons _).trans (List.Perm.swap _ _ _)

theorem setKey_perm (m : List (K × V)) (k : K) (v : V) :
    (setKey m k v).Perm ((k, v) :: removeKey m k) := by
  induction m with
  | nil => simp [setKey, removeKey]
  | cons e rest ih =>
    obtain ⟨k', v'⟩ := e
    by_cases h0 : k' = k
    · subst h0; simp [setKey, removeKey]
    · have hrw : setKey ((k', v') :: rest) k v = (k', v') :: setKey rest k v := by
        simp [setKey, h0]
      have hrw2 : removeKey ((k', v') :: rest) k = (k', v') :: removeKey rest k := by
        simp [removeKey, h0]
      rw [hrw, hrw2]
      exact (ih.cons _).trans (List.Perm.swap _ _ _)

theorem keys_nodup_of_perm {m₁ m₂ : List (K × V)} (h : m₁.Perm m₂)
    (hnd : (m₁.map Prod.fst).Nodup) : (m₂.map Prod.fst).Nodup :=
  ((h.map Prod.fst).nodup_iff).mp hnd

theorem lookupKey_eq_of_perm {m₁ m₂ : List (K × V)} (h : m₁.Perm m₂)
    (hnd : (m₁.map Prod.fst).Nodup) (k : K) :
    lookupKey m₁ k = lookupKey m₂ k := by
  cases h1 : lookupKey m₁ k with
  | none =>
    have : k ∉ m₂.map Prod.fst := by
      intro hmem
      exact (lookupKey_eq_none_iff m₁ k).mp h1
        (((h.map Prod.fst).mem_iff).mpr hmem)
    rw [(lookupKey_eq_none_iff m₂ k).mpr this]
  | some v =>
    exact ((mem_lookupKey (keys_nodup_of_perm h hnd)
      (h.mem_iff.mp (lookupKey_mem h1)))).symm

theorem removeKey_perm {m₁ m₂ : List (K × V)} (h : m₁.Perm m₂)
    (hnd : (m₁.map Prod.fst).Nodup) (k : K) :
    (removeKey m₁ k).Perm (removeKey m₂ k) := by
  cases h1 : lookupKey m₁ k with
  | none =>
    have h2 : lookupKey m₂ k = none := (lookupKey_eq_of_perm h hnd k) ▸ h1
    rw [removeKey_of_not_mem ((lookupKey_eq_none_iff m₁ k).mp h1),
      removeKey_of_not_mem ((lookupKey_eq_none_iff m₂ k).mp h2)]
    exact h
  | some v =>
    have h2 : lookupKey m₂ k = some v := (lookupKey_eq_of_perm h hnd k) ▸ h1
    have p1 := perm_cons_removeKey h1
    have p2 := perm_cons_removeKey h2
    exact (p1.symm.trans (h.trans p2)).cons_inv

theorem removeKey_append_of_not_mem {A : List (K × V)} (B : List (K × V))
    {k : K} (h : k ∉ A.map Prod.fst) :
    removeKey (A ++ B) k = A ++ removeKey B k := by
  induction A with
  | nil => simp
  | cons e rest ih =>
    obtain ⟨k', v'⟩ := e
    simp only [List.map_cons, List.mem_cons] at h
    push_neg at h
    simp [removeKey, Ne.symm h.1, ih h.2]

theorem walkKeys_eq (l : List (K × V)) : walkKeys l = l.map Prod.fst := by
  induction l with
  | nil => rfl
  | cons e rest ih => simp [walkKeys, ih]

theorem walkValues_eq (l : List (K × V)) : walkValues l = l.map Prod.snd := by
  induction l with
  | nil => rfl
  | cons e rest ih => simp [walkValues, ih]

theorem walkEntries_eq (l : List (K × V)) : walkEntries l = l := by
  induction l with
  | nil => rfl
  | cons e rest ih => simp [walkEntries, ih]

theorem iterWalk_eq (l : List (K × V)) : iterWalk l = l := by
  induction l with
  | nil => rfl
  | cons e rest ih => simp [iterWalk, ih]

theorem rat_int_lt_add_one_le {q : ℚ} (hden : q.den = 1) {n : Nat}
    (h : (n : ℚ) < q) : (n : ℚ) + 1 ≤ q := by
  have hq : ((q.num : ℚ)) = q := (Rat.den_eq_one_iff q).mp hden
  rw [← hq] at h ⊢
  have h' : (n : ℤ) < q.num := by exact_mod_cast h
  have h'' : (n : ℤ) + 1 ≤ q.num := h'
  exact_mod_cast h''

/-! ### Unfolding the operations -/

theorem get_miss {st : LRUCache K V} {k : K}
    (h : lookupKey st.cache k = none) : st.get k = (none, st) := by
  simp [LRUCache.get, h]

theorem moveToHead_def (st : LRUCache K V) (k : K) (v : V) :
    st.moveToHead k v =
      { st with order := (k, v) :: removeKey st.order k } := rfl

theorem get_hit {st : LRUCache K V} {k : K} {v : V}
    (h : lookupKey st.cache k = some v) :
    st.get k = (some v, { st with order := (k, v) :: removeKey st.order k }) := by
  simp [LRUCache.get, h, moveToHead_def]

theorem set_present {st : LRUCache K V} {k : K} {v : V} {v₀ : V}
    (h : lookupKey st.cache k = some v₀) :
    st.set k v = { capacity := st.capacity, cache := setKey st.cache k v,
                   order := (k, v) :: removeKey st.order k } := by
  simp [LRUCache.set, h, moveToHead_def, LRUCache.addToHead, LRUCache.removeNode]

theorem set_absent_room {st : LRUCache K V} {k : K} (v : V)
    (h : lookupKey st.cache k = none)
    (hroom : ¬ st.capacity ≤ (st.cache.length : ℚ)) :
    st.set k v = { capacity := st.capacity, cache := setKey st.cache k v,
                   order := (k, v) :: st.order } := by
  simp [LRUCache.set, h, hroom, LRUCache.addToHead]

theorem removeTail_capacity (st : LRUCache K V) :
    (st.removeTail).capacity = st.capacity := by
  cases h : st.order.getLast? <;> simp [LRUCache.removeTail, h]

theorem set_absent_full {st : LRUCache K V} {k : K} (v : V)
    (h : lookupKey st.cache k = none)
    (hfull : st.capacity ≤ (st.cache.length : ℚ)) :
    st.set k v = { capacity := st.capacity,
                   cache := setKey (st.removeTail).cache k v,
                   order := (k, v) :: (st.removeTail).order } := by
  simp [LRUCache.set, h, hfull, LRUCache.addToHead, removeTail_capacity]

theorem removeTail_of_ne_nil {st : LRUCache K V} (h : st.order ≠ []) :
    st.removeTail = { capacity := st.capacity,
                      cache := removeKey st.cache (st.order.getLast h).1,
                      order := st.order.dropLast } := by
  rw [LRUCache.removeTail, List.getLast?_eq_getLast _ h]

theorem delete_miss {st : LRUCache K V} {k : K}
    (h : lookupKey st.cache k = none) : st.delete k = (false, st) := by
  simp [LRUCache.delete, h]

theorem delete_hit {st : LRUCache K V} {k : K} {v : V}
    (h : lookupKey st.cache k = some v) :
    st.delete k = (true, { capacity := st.capacity,
                           cache := removeKey st.cache k,
                           order := removeKey st.order k }) := by
  simp [LRUCache.delete, h, LRUCache.removeNode]

/-! ### Preservation of the invariant -/

theorem inv_cache_keys_nodup {st : LRUCache K V} (h : Inv st) :
    (st.cache.map Prod.fst).Nodup :=
  keys_nodup_of_perm h.2.1.symm h.2.2.1

theorem moveOrder_keys_nodup {l : List (K × V)} {k : K} (v : V)
    (hnd : (l.map Prod.fst).Nodup) :
    (((k, v) :: removeKey l k).map Prod.fst).Nodup := by
  simp only [List.map_cons, List.nodup_cons, keys_removeKey]
  exact ⟨hnd.not_mem_erase, hnd.erase k⟩

theorem moveOrder_length {l : List (K × V)} {k : K} (v : V)
    (h : k ∈ l.map Prod.fst) :
    ((k, v) :: removeKey l k).length = l.length := by
  simp only [List.length_cons]
  exact length_removeKey_add_one h

theorem mem_order_keys_of_hit {st : LRUCache K V} {k : K} {v : V}
    (hinv : Inv st) (h : lookupKey st.cache k = some v) :
    k ∈ st.order.map Prod.fst :=
  List.mem_map.mpr ⟨(k, v), hinv.2.1.mem_iff.mp (lookupKey_mem h), rfl⟩

theorem lookupKey_order_of_hit {st : LRUCache K V} {k : K} {v : V}
    (hinv : Inv st) (h : lookupKey st.cache k = some v) :
    lookupKey st.order k = some v :=
  mem_lookupKey hinv.2.2.1 (hinv.2.1.mem_iff.mp (lookupKey_mem h))

theorem inv_mkEmpty {n : Nat} (h : 0 < n) :
    Inv (mkEmpty (n : ℚ) : LRUCache K V) := by
  refine ⟨⟨show (0 : ℚ) < (n : ℚ) by exact_mod_cast h, Rat.den_natCast n⟩,
    List.Perm.refl _, ?_, ?_⟩
  · simp [mkEmpty]
  · simp only [mkEmpty, List.length_nil, Nat.cast_zero]
    positivity

theorem inv_get (st : LRUCache K V) (k : K) (h : Inv st) : Inv (st.get k).2 := by
  obtain ⟨hcap, hperm, hnd, hlen⟩ := h
  cases hl : lookupKey st.cache k with
  | none => rw [get_miss hl]; exact ⟨hcap, hperm, hnd, hlen⟩
  | some v =>
    rw [get_hit hl]
    have hmem : k ∈ st.order.map Prod.fst :=
      mem_order_keys_of_hit ⟨hcap, hperm, hnd, hlen⟩ hl
    refine ⟨hcap, ?_, moveOrder_keys_nodup v hnd, ?_⟩
    · exact hperm.trans
        (perm_cons_removeKey (lookupKey_order_of_hit ⟨hcap, hperm, hnd, hlen⟩ hl))
    · simpa [moveOrder_length v hmem] using hlen

theorem inv_has (st : LRUCache K V) (k : K) (h : Inv st) : Inv (st.has k).2 := h

theorem inv_clear (st : LRUCache K V) (h : Inv st) : Inv st.clear := by
  refine ⟨h.1, List.Perm.refl _, ?_, ?_⟩
  · simp [LRUCache.clear]
  · simp only [LRUCache.clear, List.length_nil, Nat.cast_zero]
    exact le_of_lt h.1.1

theorem inv_delete (st : LRUCache K V) (k : K) (h : Inv st) :
    Inv (st.delete k).2 := by
  obtain ⟨hcap, hperm, hnd, hlen⟩ := h
  cases hl : lookupKey st.cache k with
  | none => rw [delete_miss hl]; exact ⟨hcap, hperm, hnd, hlen⟩
  | some v =>
    rw [delete_hit hl]
    refine ⟨hcap, ?_, ?_, ?_⟩
    · exact removeKey_perm hperm
        (inv_cache_keys_nodup ⟨hcap, hperm, hnd, hlen⟩) k
    · rw [keys_removeKey]
      exact hnd.erase k
    · refine le_trans ?_ hlen
      have := (removeKey_sublist st.order k).length_le
      exact_mod_cast this

theorem inv_set (st : LRUCache K V) (k : K) (v : V) (h : Inv st) :
    Inv (st.set k v) := by
  obtain ⟨hcap, hperm, hnd, hlen⟩ := h
  cases hl : lookupKey st.cache k with
  | some v₀ =>
    rw [set_present hl]
    have hmem : k ∈ st.order.map Prod.fst :=
      mem_order_keys_of_hit ⟨hcap, hperm, hnd, hlen⟩ hl
    refine ⟨hcap, ?_, moveOrder_keys_nodup v hnd, ?_⟩
    · exact (setKey_perm st.cache k v).trans
        ((removeKey_perm hperm (inv_cache_keys_nodup ⟨hcap, hperm, hnd, hlen⟩) k).cons _)
    · simpa [moveOrder_length v hmem] using hlen
  | none =>
    have habs : k ∉ st.cache.map Prod.fst := (lookupKey_eq_none_iff _ _).mp hl
    have habso : k ∉ st.order.map Prod.fst := by
      intro hmem
      exact habs (((hperm.map Prod.fst).mem_iff).mpr hmem)
    by_cases hfull : st.capacity ≤ (st.cache.length : ℚ)
    · -- eviction branch
      have hne : st.order ≠ [] := by
        intro h0
        rw [h0] at hperm
        have : st.cache = [] := List.Perm.eq_nil hperm
        rw [this] at hfull
        simp at hfull
        exact absurd (lt_of_lt_of_le hcap.1 hfull) (by norm_num)
      rw [set_absent_full v hl hfull, removeTail_of_ne_nil hne]
      set last := st.order.getLast hne with hlast
      have hdecomp : st.order.dropLast ++ [last] = st.order :=
        List.dropLast_append_getLast hne
      have hkeys : st.order.map Prod.fst
          = st.order.dropLast.map Prod.fst ++ [last.1] := by
        rw [← hdecomp]; simp
      have hlknotin : last.1 ∉ st.order.dropLast.map Prod.fst := by
        intro hmem
        rw [hkeys] at hnd
        exact (List.nodup_append.mp hnd).2.2 hmem (List.mem_singleton.mpr rfl)
      have hrk : removeKey st.order last.1 = st.order.dropLast := by
        rw [← hdecomp, removeKey_append_of_not_mem _ hlknotin]
        simp [removeKey]
      have hpermdrop : (removeKey st.cache last.1).Perm st.order.dropLast := by
        rw [← hrk]
        exact removeKey_perm hperm (inv_cache_keys_nodup ⟨hcap, hperm, hnd, hlen⟩) _
      have habs' : k ∉ (removeKey st.cache last.1).map Prod.fst := by
        intro hmem
        rw [keys_removeKey] at hmem
        exact habs (List.mem_of_mem_erase hmem)
      have hdropnd : (st.order.dropLast.map Prod.fst).Nodup := by
        rw [hkeys] at hnd
        exact (List.nodup_append.mp hnd).1
      have hknotdrop : k ∉ st.order.dropLast.map Prod.fst := by
        intro hmem
        exact habso (by rw [hkeys]; exact List.mem_append_left _ hmem)
      refine ⟨hcap, ?_, ?_, ?_⟩
      · refine (setKey_perm _ k v).trans ?_
        rw [removeKey_of_not_mem habs']
        exact hpermdrop.cons _
      · simp only [List.map_cons, List.nodup_cons]
        exact ⟨hknotdrop, hdropnd⟩
      · have hlendrop : st.order.dropLast.length + 1 = st.order.length := by
          conv_rhs => rw [← hdecomp]
          simp
        simp only [List.length_cons, hlendrop]
        exact hlen
    · -- room branch
      rw [set_absent_room v hl hfull]
      refine ⟨hcap, ?_, ?_, ?_⟩
      · refine (setKey_perm _ k v).trans ?_
        rw [removeKey_of_not_mem habs]
        exact hperm.cons _
      · simp only [List.map_cons, List.nodup_cons]
        exact ⟨habso, hnd⟩
      · push_neg at hfull
        have hlt : ((st.order.length : ℚ)) < st.capacity := by
          rw [← hperm.length_eq]
          exact hfull
        have := rat_int_lt_add_one_le hcap.2 hlt
        simp only [List.length_cons]
        push_cast
        linarith

instance [DecidableEq V] (st : LRUCache K V) : Decidable (Inv st) :=
  inferInstanceAs (Decidable (_ ∧ _ ∧ _ ∧ _))

theorem keys_def (st : LRUCache K V) : st.keys = st.order.map Prod.fst :=
  walkKeys_eq _

theorem values_def (st : LRUCache K V) : st.values = st.order.map Prod.snd :=
  walkValues_eq _

theorem entries_def (st : LRUCache K V) : st.entries = st.order :=
  walkEntries_eq _

theorem iterSeq_def (st : LRUCache K V) : st.iterSeq = st.order :=
  iterWalk_eq _

theorem get_snd_cache (st : LRUCache K V) (k : K) :
    (st.get k).2.cache = st.cache := by
  cases h : lookupKey st.cache k with
  | none => rw [get_miss h]
  | some v => rw [get_hit h]

theorem get_snd_capacity (st : LRUCache K V) (k : K) :
    (st.get k).2.capacity = st.capacity := by
  cases h : lookupKey st.cache k with
  | none => rw [get_miss h]
  | some v => rw [get_hit h]

theorem lookupKey_set_self (st : LRUCache K V) (k : K) (v : V) :
    lookupKey (st.set k v).cache k = some v := by
  cases h : lookupKey st.cache k with
  | some v₀ => rw [set_present h]; exact lookupKey_setKey_self _ _ _
  | none =>
    by_cases hfull : st.capacity ≤ (st.cache.length : ℚ)
    · rw [set_absent_full v h hfull]; exact lookupKey_setKey_self _ _ _
    · rw [set_absent_room v h hfull]; exact lookupKey_setKey_self _ _ _

theorem reachable_inv {st : LRUCache K V} (h : Reachable st) : Inv st := by
  induction h with
  | construct n hn => exact inv_mkEmpty hn
  | get st k _ ih => exact inv_get st k ih
  | set st k v _ ih => exact inv_set st k v ih
  | has st k _ ih => exact inv_has st k ih
  | delete st k _ ih => exact inv_delete st k ih
  | clear st _ ih => exact inv_clear st ih

/-! ### Preservation of a binding along a safe trace (round-trip law) -/

theorem removeTail_none {st : LRUCache K V} (h : st.order.getLast? = none) :
    st.removeTail = st := by
  simp [LRUCache.removeTail, h]

theorem removeTail_some {st : LRUCache K V} {last : K × V}
    (h : st.order.getLast? = some last) :
    st.removeTail = { st with cache := removeKey st.cache last.1,
                              order := st.order.dropLast } := by
  simp [LRUCache.removeTail, h]

theorem lookup_preserved {st : LRUCache K V} {k : K} {v : V} {op : Op K V}
    (h : lookupKey st.cache k = some v) (hs : keySafe k st op = true) :
    lookupKey (applyOp st op).cache k = some v := by
  cases op with
  | get k' =>
    simp only [applyOp]
    rw [get_snd_cache]
    exact h
  | has k' =>
    simp only [applyOp, LRUCache.has]
    exact h
  | set k' v' =>
    simp only [applyOp]
    by_cases hk : k' = k
    · simp [keySafe, hk] at hs
    · cases hl : lookupKey st.cache k' with
      | some w =>
        rw [set_present hl, lookupKey_setKey_ne _ _ _ (Ne.symm hk)]
        exact h
      | none =>
        by_cases hfull : st.capacity ≤ (st.cache.length : ℚ)
        · have hlast : (st.order.getLast?).map Prod.fst ≠ some k := by
            simp only [keySafe, if_neg hk, hl, Option.isNone_none, Bool.true_and,
              decide_eq_true_eq] at hs
            rw [if_pos (by simpa using hfull)] at hs
            simpa using hs
          rw [set_absent_full v' hl hfull,
            lookupKey_setKey_ne _ _ _ (Ne.symm hk)]
          cases hgl : st.order.getLast? with
          | none =>
            rw [removeTail_none hgl]
            exact h
          | some last =>
            have hlk : k ≠ last.1 := by
              rw [hgl] at hlast
              intro hh
              exact hlast (by simpa using congrArg some hh.symm)
            rw [removeTail_some hgl, lookupKey_removeKey_ne _ _ hlk]
            exact h
        · rw [set_absent_room v' hl hfull,
            lookupKey_setKey_ne _ _ _ (Ne.symm hk)]
          exact h
  | delete k' =>
    simp only [applyOp]
    have hk : k' ≠ k := by simpa [keySafe] using hs
    cases hl : lookupKey st.cache k' with
    | none =>
      rw [delete_miss hl]
      exact h
    | some w =>
      rw [delete_hit hl]
      rw [lookupKey_removeKey_ne _ _ (Ne.symm hk)]
      exact h
  | clear => simp [keySafe] at hs

theorem lookup_preserved_trace (k : K) (v : V) :
    ∀ (ops : List (Op K V)) (st : LRUCache K V),
      lookupKey st.cache k = some v → safeTrace k st ops = true →
      lookupKey (applyOps st ops).cache k = some v := by
  intro ops
  induction ops with
  | nil =>
    intro st h _
    simpa [applyOps] using h
  | cons op rest ih =>
    intro st h hs
    simp only [safeTrace, Bool.and_eq_true] at hs
    simp only [applyOps]
    exact ih _ (lookup_preserved h hs.1) hs.2

/-! ### The claims -/

/-- C1: on a full cache (`size = capacity`) and an absent key `k`,
`set(k, v)` removes exactly the LRU entry (the entry immediately before the
tail sentinel, i.e. the last element of the ordering) from both the index
and the ordering, removes no other entry, inserts `(k, v)` at the MRU
position, and leaves `size = capacity`. -/
theorem claim_C1_eviction (st : LRUCache K V) (k : K) (v : V)
    (hinv : Inv st)
    (hfull : (st.cache.length : ℚ) = st.capacity)
    (habs : lookupKey st.cache k = none) :
    ∃ lk lv,
      st.order.getLast? = some (lk, lv) ∧
      (st.set k v).order = (k, v) :: st.order.dropLast ∧
      lookupKey (st.set k v).cache lk = none ∧
      lookupKey (st.set k v).cache k = some v ∧
      (∀ k', k' ≠ k → k' ≠ lk →
        lookupKey (st.set k v).cache k' = lookupKey st.cache k') ∧
      (st.set k v).size = st.size ∧
      ((st.set k v).size : ℚ) = st.capacity := by
  obtain ⟨hcap, hperm, hnd, hlen⟩ := hinv
  have hcache_nd : (st.cache.map Prod.fst).Nodup :=
    keys_nodup_of_perm hperm.symm hnd
  have hcne : st.cache ≠ [] := by
    intro h0
    rw [h0] at hfull
    simp only [List.length_nil, Nat.cast_zero] at hfull
    exact absurd hcap.1 (by rw [← hfull]; exact lt_irrefl 0)
  have hne : st.order ≠ [] := by
    intro h0
    exact hcne (List.Perm.eq_nil (h0 ▸ hperm))
  have hgl : st.order.getLast? = some (st.order.getLast hne) :=
    List.getLast?_eq_getLast _ hne
  have hfull' : st.capacity ≤ (st.cache.length : ℚ) := le_of_eq hfull.symm
  have habsk : k ∉ st.cache.map Prod.fst := (lookupKey_eq_none_iff _ _).mp habs
  have hlmem : (st.order.getLast hne) ∈ st.cache :=
    hperm.mem_iff.mpr (List.getLast_mem hne)
  have hlkmem : (st.order.getLast hne).1 ∈ st.cache.map Prod.fst :=
    List.mem_map.mpr ⟨_, hlmem, rfl⟩
  have hlk_ne : (st.order.getLast hne).1 ≠ k := by
    intro hh
    exact habsk (hh ▸ hlkmem)
  have hstate := set_absent_full v habs hfull'
  rw [removeTail_of_ne_nil hne] at hstate
  have habs2 : k ∉ (removeKey st.cache (st.order.getLast hne).1).map Prod.fst := by
    intro hmem
    rw [keys_removeKey] at hmem
    exact habsk (List.mem_of_mem_erase hmem)
  refine ⟨(st.order.getLast hne).1, (st.order.getLast hne).2,
    by rw [Prod.mk.eta]; exact hgl, ?_, ?_, ?_, ?_, ?_, ?_⟩
  · rw [hstate]
  · rw [hstate]
    simp only
    rw [lookupKey_setKey_ne _ _ _ hlk_ne]
    exact lookupKey_removeKey_self _ _ hcache_nd
  · rw [hstate]
    exact lookupKey_setKey_self _ _ _
  · intro k' hk1 hk2
    rw [hstate]
    simp only
    rw [lookupKey_setKey_ne _ _ _ hk1, lookupKey_removeKey_ne _ _ hk2]
  · rw [hstate]
    simp only [LRUCache.size]
    rw [setKey_of_not_mem v habs2]
    simp only [List.length_append, List.length_singleton]
    exact length_removeKey_add_one hlkmem
  · rw [hstate]
    simp only [LRUCache.size]
    rw [setKey_of_not_mem v habs2]
    simp only [List.length_append, List.length_singleton]
    rw [show (removeKey st.cache (st.order.getLast hne).1).length + 1
        = st.cache.length from length_removeKey_add_one hlkmem]
    exact hfull

/-- The TypeScript number 2.5 (exactly representable as an IEEE double and
as a rational), a positive non-integer constructor argument. -/
def twoPointFive : ℚ := ⟨5, 2, by decide, by decide⟩

/-- C2 counterexample: the constructor only checks `capacity <= 0`, so the
positive non-integer capacity 2.5 is accepted and produces a cache, even
though 2.5 is not a positive integer — refuting "fails with
`InvalidCapacity` exactly when the supplied capacity is not a positive
integer". -/
theorem claim_C2_counterexample :
    ¬ IsPosIntQ twoPointFive ∧
    construct twoPointFive
      = Except.ok (mkEmpty twoPointFive : LRUCache Nat Nat) := by
  constructor
  · decide
  · simp only [construct]
    rw [if_neg (by decide : ¬ twoPointFive ≤ 0)]

/-- C2 (amended): construction fails with the `InvalidCapacity` error
exactly when the supplied capacity is `≤ 0` (in particular it fails for
every non-positive capacity and succeeds, with an empty cache, for every
positive one — including every positive integer, but also non-integers
such as 5/2); on failure no cache value is produced. -/
theorem claim_C2_construct (q : ℚ) :
    (construct q = (Except.error ConstructError.invalidCapacity :
        Except ConstructError (LRUCache K V)) ↔ q ≤ 0) ∧
    (construct q = (Except.ok (mkEmpty q) :
        Except ConstructError (LRUCache K V)) ↔ 0 < q) := by
  by_cases h : q ≤ 0
  · constructor
    · simp [construct, h]
    · simp only [construct, if_pos h]
      constructor
      · intro hh
        exact absurd hh (by simp)
      · intro hh
        exact absurd h (not_le.mpr hh)
  · constructor
    · simp only [construct, if_neg h]
      constructor
      · intro hh
        exact absurd hh (by simp)
      · intro hh
        exact absurd hh h
    · simp [construct, h, not_le.mp h]

theorem claim_C2_construct_witness :
    construct (3 : ℚ)
      = (Except.ok (mkEmpty 3) : Except ConstructError (LRUCache Nat Nat)) :=
  ((claim_C2_construct 3).2).mpr (by norm_num)

/-- C3: every state reachable from a fresh cache satisfies
`0 ≤ size ≤ capacity`; the key set of the index equals the key set of the
ordering walk, and `size` equals both cardinalities. -/
theorem claim_C3_invariant (st : LRUCache K V) (h : Reachable st) :
    0 ≤ st.size ∧ (st.size : ℚ) ≤ st.capacity ∧
    (∀ k, k ∈ st.cache.map Prod.fst ↔ k ∈ st.keys) ∧
    st.keys.Nodup ∧
    st.size = st.cache.length ∧ st.size = st.keys.length := by
  obtain ⟨hcap, hperm, hnd, hlen⟩ := reachable_inv h
  refine ⟨Nat.zero_le _, ?_, ?_, ?_, rfl, ?_⟩
  · simpa [LRUCache.size, hperm.length_eq] using hlen
  · intro k
    rw [keys_def]
    exact (hperm.map Prod.fst).mem_iff
  · rw [keys_def]
    exact hnd
  · rw [keys_def, List.length_map, LRUCache.size]
    exact hperm.length_eq

/-- C4: `has(k)` returns `true` exactly when `k` is a live key, and
changes nothing: the state it hands back is the argument state, any number
of `has` calls leaves the state unchanged, and `keys`/`values`/`entries`
are identical before and after. -/
theorem claim_C4_has_pure (st : LRUCache K V) (k : K) :
    ((st.has k).1 = true ↔ k ∈ st.cache.map Prod.fst) ∧
    (st.has k).2 = st ∧
    (∀ n, hasIter st k n = st) ∧
    (st.has k).2.keys = st.keys ∧
    (st.has k).2.values = st.values ∧
    (st.has k).2.entries = st.entries := by
  refine ⟨lookupKey_isSome_iff _ _, rfl, ?_, rfl, rfl, rfl⟩
  intro n
  induction n with
  | zero => rfl
  | succ n ih => simp [hasIter, LRUCache.has, ih]

/-- C5: `get` on a present key returns the stored value and moves the key
to the front of `keys()`; `set` on a present key moves it to the front,
overwrites the value in place, and leaves `size` unchanged; `get` on an
absent key returns "absent" and changes no state. -/
theorem claim_C5_promotion (st : LRUCache K V) (k : K) :
    (∀ v, lookupKey st.cache k = some v →
      (st.get k).1 = some v ∧
      (st.get k).2.keys = k :: st.keys.erase k ∧
      (st.get k).2.size = st.size) ∧
    (∀ v₀ v, lookupKey st.cache k = some v₀ →
      (st.set k v).keys = k :: st.keys.erase k ∧
      lookupKey (st.set k v).cache k = some v ∧
      (st.set k v).size = st.size) ∧
    (lookupKey st.cache k = none → st.get k = (none, st)) := by
  refine ⟨?_, ?_, get_miss⟩
  · intro v hv
    rw [get_hit hv]
    refine ⟨rfl, ?_, rfl⟩
    simp [keys_def, keys_removeKey]
  · intro v₀ v hv
    have hmem : k ∈ st.cache.map Prod.fst :=
      List.mem_map.mpr ⟨(k, v₀), lookupKey_mem hv, rfl⟩
    rw [set_present hv]
    refine ⟨?_, lookupKey_setKey_self _ _ _, ?_⟩
    · simp [keys_def, keys_removeKey]
    · simp only [LRUCache.size]
      exact length_setKey_present v hmem

/-- C6: immediately after `set(k, v)` a `get(k)` returns `v`, and it still
does after any further operation sequence that never overwrites `k`,
deletes `k`, clears the cache, or evicts `k`. -/
theorem claim_C6_roundtrip (st : LRUCache K V) (k : K) (v : V) :
    ((st.set k v).get k).1 = some v ∧
    ∀ ops : List (Op K V), safeTrace k (st.set k v) ops = true →
      ((applyOps (st.set k v) ops).get k).1 = some v := by
  constructor
  · rw [get_hit (lookupKey_set_self st k v)]
  · intro ops hops
    rw [get_hit (lookup_preserved_trace k v ops (st.set k v)
      (lookupKey_set_self st k v) hops)]

/-- C7: `delete(k)` on a present key returns `true` and removes the entry
from both the index and the ordering, re-linking its former neighbours to
each other; on an absent key it returns `false` and changes nothing. -/
theorem claim_C7_delete (st : LRUCache K V) (k : K) :
    (lookupKey st.cache k = none → st.delete k = (false, st)) ∧
    (∀ v, lookupKey st.cache k = some v → (st.cache.map Prod.fst).Nodup →
      (st.delete k).1 = true ∧
      lookupKey (st.delete k).2.cache k = none ∧
      (∀ k', k' ≠ k →
        lookupKey (st.delete k).2.cache k' = lookupKey st.cache k') ∧
      (st.delete k).2.keys = st.keys.erase k ∧
      (st.delete k).2.size + 1 = st.size ∧
      (∀ A B e, st.order = A ++ e :: B → e.1 = k → k ∉ A.map Prod.fst →
        (st.delete k).2.order = A ++ B)) := by
  refine ⟨delete_miss, ?_⟩
  intro v hv hnd
  have hmem : k ∈ st.cache.map Prod.fst :=
    List.mem_map.mpr ⟨(k, v), lookupKey_mem hv, rfl⟩
  rw [delete_hit hv]
  refine ⟨rfl, ?_, ?_, ?_, ?_, ?_⟩
  · exact lookupKey_removeKey_self _ _ hnd
  · intro k' hk'
    exact lookupKey_removeKey_ne _ _ hk'
  · simp [keys_def, keys_removeKey]
  · simp only [LRUCache.size]
    exact length_removeKey_add_one hmem
  · intro A B e hdec he hA
    simp only
    rw [hdec, removeKey_append_of_not_mem _ hA]
    obtain ⟨ek, ev⟩ := e
    simp only at he
    simp [removeKey, he]

/-- The state of spec Scenario E: capacity 3; `set(a,1)`, `set(b,2)`,
`set(c,3)`; `clear()`; `set(d,4)` — with the keys a, b, c, d encoded as
0, 1, 2, 3. -/
def scenarioE : LRUCache Nat Nat :=
  (((((mkEmpty 3 : LRUCache Nat Nat).set 0 1).set 1 2).set 2 3).clear).set 3 4

/-- C8: `clear()` yields exactly the state a fresh construction with the
same capacity yields (so every subsequent operation sequence behaves as on
a fresh instance), and Scenario E holds: after capacity 3,
`set(a,1);set(b,2);set(c,3);clear();set(d,4)` the size is 1, `get(d)` is 4
and `get(a)` is absent. -/
theorem claim_C8_clear (st : LRUCache K V) :
    (0 < st.capacity → construct st.capacity = Except.ok st.clear) ∧
    st.clear = mkEmpty st.capacity ∧
    (∀ ops : List (Op K V),
      applyOps st.clear ops = applyOps (mkEmpty st.capacity) ops) ∧
    (scenarioE.size = 1 ∧ (scenarioE.get 3).1 = some 4 ∧
      (scenarioE.get 0).1 = none) := by
  refine ⟨?_, rfl, fun ops => rfl, by decide⟩
  intro hpos
  simp only [construct, if_neg (not_le.mpr hpos)]
  rfl

/-- C9: `keys()`, `values()`, `entries()` and the iterator enumerate the
live entries in the same MRU-to-LRU order — the order of the sentinel-free
ordering walk: `keys` is the first projection of `entries`, `values` the
second, and the iterator yields exactly the `entries()` sequence.  All
four are pure reads of the state. -/
theorem claim_C9_snapshots (st : LRUCache K V) :
    st.entries = st.order ∧
    st.keys = st.entries.map Prod.fst ∧
    st.values = st.entries.map Prod.snd ∧
    st.iterSeq = st.entries := by
  refine ⟨entries_def st, ?_, ?_, ?_⟩
  · rw [keys_def, entries_def]
  · rw [values_def, entries_def]
  · rw [iterSeq_def, entries_def]

/-- C10: on a key stored with value `undefined` (here: `none`), `get`
returns `undefined` — observably the same result as for an absent key —
while `has` still answers `true`, the entry still counts toward `size`,
and the access still promotes the key to the MRU position. -/
theorem claim_C10_undefined_value (st : LRUCache K (Option W)) (k : K)
    (h : lookupKey st.cache k = some none) :
    (st.get k).1 = some none ∧
    Option.join (st.get k).1 = none ∧
    (∀ (st' : LRUCache K (Option W)) (k' : K),
      lookupKey st'.cache k' = none → Option.join (st'.get k').1 = none) ∧
    (st.has k).1 = true ∧
    k ∈ st.cache.map Prod.fst ∧
    0 < st.size ∧
    (st.get k).2.keys = k :: st.keys.erase k := by
  have hmem : (k, (none : Option W)) ∈ st.cache := lookupKey_mem h
  refine ⟨?_, ?_, ?_, ?_, ?_, ?_, ?_⟩
  · rw [get_hit h]
  · rw [get_hit h]
    rfl
  · intro st' k' h'
    rw [get_miss h']
    rfl
  · simp only [LRUCache.has, h, Option.isSome_some]
  · exact List.mem_map.mpr ⟨_, hmem, rfl⟩
  · simp only [LRUCache.size]
    exact List.length_pos.mpr (List.ne_nil_of_mem hmem)
  · rw [get_hit h]
    simp [keys_def, keys_removeKey]

/-! ### Concrete witness states -/

/-- A full capacity-2 cache: keys 0 and 1, key 1 most recently used. -/
def c1state : LRUCache Nat Nat := ⟨2, [(0, 10), (1, 20)], [(1, 20), (0, 10)]⟩

/-- A capacity-3 cache holding keys 1 and 2, key 2 most recently used. -/
def c5state : LRUCache Nat Nat := ⟨3, [(1, 11), (2, 22)], [(2, 22), (1, 11)]⟩

/-- A full capacity-3 cache holding keys 1, 2 and 3. -/
def c7state : LRUCache Nat Nat :=
  ⟨3, [(1, 11), (2, 22), (3, 33)], [(3, 33), (2, 22), (1, 11)]⟩

/-- A capacity-1 cache whose single key 0 stores the value `undefined`. -/
def c10state : LRUCache Nat (Option Nat) := ⟨1, [(0, none)], [(0, none)]⟩

theorem claim_C1_eviction_witness :
    ∃ lk lv,
      c1state.order.getLast? = some (lk, lv) ∧
      (c1state.set 5 50).order = (5, 50) :: c1state.order.dropLast ∧
      lookupKey (c1state.set 5 50).cache lk = none ∧
      lookupKey (c1state.set 5 50).cache 5 = some 50 ∧
      (∀ k', k' ≠ 5 → k' ≠ lk →
        lookupKey (c1state.set 5 50).cache k' = lookupKey c1state.cache k') ∧
      (c1state.set 5 50).size = c1state.size ∧
      ((c1state.set 5 50).size : ℚ) = c1state.capacity :=
  claim_C1_eviction c1state 5 50 (by decide) (by decide) (by decide)

theorem claim_C3_invariant_witness :
    0 ≤ ((mkEmpty ((2 : Nat) : ℚ) : LRUCache Nat Nat).set 1 10).size ∧
    ((((mkEmpty ((2 : Nat) : ℚ) : LRUCache Nat Nat).set 1 10).size : ℚ)
        ≤ ((mkEmpty ((2 : Nat) : ℚ) : LRUCache Nat Nat).set 1 10).capacity) ∧
    (∀ k, k ∈ ((mkEmpty ((2 : Nat) : ℚ) : LRUCache Nat Nat).set 1 10).cache.map Prod.fst
        ↔ k ∈ ((mkEmpty ((2 : Nat) : ℚ) : LRUCache Nat Nat).set 1 10).keys) ∧
    ((mkEmpty ((2 : Nat) : ℚ) : LRUCache Nat Nat).set 1 10).keys.Nodup ∧
    ((mkEmpty ((2 : Nat) : ℚ) : LRUCache Nat Nat).set 1 10).size
      = ((mkEmpty ((2 : Nat) : ℚ) : LRUCache Nat Nat).set 1 10).cache.length ∧
    ((mkEmpty ((2 : Nat) : ℚ) : LRUCache Nat Nat).set 1 10).size
      = ((mkEmpty ((2 : Nat) : ℚ) : LRUCache Nat Nat).set 1 10).keys.length :=
  claim_C3_invariant _ (Reachable.set _ 1 10 (Reachable.construct 2 (by decide)))

theorem claim_C5_promotion_witness :
    ((c5state.get 1).1 = some 11 ∧
      (c5state.get 1).2.keys = 1 :: c5state.keys.erase 1 ∧
      (c5state.get 1).2.size = c5state.size) ∧
    ((c5state.set 1 99).keys = 1 :: c5state.keys.erase 1 ∧
      lookupKey (c5state.set 1 99).cache 1 = some 99 ∧
      (c5state.set 1 99).size = c5state.size) ∧
    c5state.get 7 = (none, c5state) :=
  ⟨(claim_C5_promotion c5state 1).1 11 (by decide),
   (claim_C5_promotion c5state 1).2.1 11 99 (by decide),
   (claim_C5_promotion c5state 7).2.2 (by decide)⟩

theorem claim_C6_roundtrip_witness :
    (((mkEmpty 2 : LRUCache Nat Nat).set 1 10).get 1).1 = some 10 ∧
    ((applyOps ((mkEmpty 2 : LRUCache Nat Nat).set 1 10)
        [Op.set 2 20, Op.get 2]).get 1).1 = some 10 :=
  ⟨(claim_C6_roundtrip (mkEmpty 2) 1 10).1,
   (claim_C6_roundtrip (mkEmpty 2) 1 10).2 [Op.set 2 20, Op.get 2] (by decide)⟩

theorem claim_C7_delete_witness :
    c7state.delete 7 = (false, c7state) ∧
    (c7state.delete 2).1 = true ∧
    lookupKey (c7state.delete 2).2.cache 2 = none ∧
    lookupKey (c7state.delete 2).2.cache 1 = lookupKey c7state.cache 1 ∧
    (c7state.delete 2).2.keys = c7state.keys.erase 2 ∧
    (c7state.delete 2).2.size + 1 = c7state.size ∧
    (c7state.delete 2).2.order = [(3, 33)] ++ [(1, 11)] :=
  ⟨(claim_C7_delete c7state 7).1 (by decide),
   ((claim_C7_delete c7state 2).2 22 (by decide) (by decide)).1,
   ((claim_C7_delete c7state 2).2 22 (by decide) (by decide)).2.1,
   ((claim_C7_delete c7state 2).2 22 (by decide) (by decide)).2.2.1 1 (by decide),
   ((claim_C7_delete c7state 2).2 22 (by decide) (by decide)).2.2.2.1,
   ((claim_C7_delete c7state 2).2 22 (by decide) (by decide)).2.2.2.2.1,
   ((claim_C7_delete c7state 2).2 22 (by decide) (by decide)).2.2.2.2.2
     [(3, 33)] [(1, 11)] (2, 22) (by decide) (by decide) (by decide)⟩

theorem claim_C8_clear_witness :
    construct (2 : ℚ) = Except.ok ((mkEmpty 2 : LRUCache Nat Nat).clear) :=
  (claim_C8_clear (mkEmpty 2 : LRUCache Nat Nat)).1 (by decide)

theorem claim_C10_undefined_value_witness :
    (c10state.get 0).1 = some none ∧
    Option.join (c10state.get 0).1 = none ∧
    (∀ (st' : LRUCache Nat (Option Nat)) (k' : Nat),
      lookupKey st'.cache k' = none → Option.join (st'.get k').1 = none) ∧
    (c10state.has 0).1 = true ∧
    0 ∈ c10state.cache.map Prod.fst ∧
    0 < c10state.size ∧
    (c10state.get 0).2.keys = 0 :: c10state.keys.erase 0 :=
  claim_C10_undefined_value c10state 0 (by decide)

end LruModel
